import Mathlib

/-!
Verification of `src/python/auc.py`: ROC AUC computation, ordinary least
squares, regression residuals and variance inflation factors.

The module is embedded shallowly: probabilities and matrix entries become
exact rationals (`ℚ`), labels become `Int` (the code compares them to the
integers 0 and 1 and a doctest passes the label `-1`), and the two
exceptions raised by `get_auc` become an explicit error type.
-/

/-- The two errors `get_auc` can raise: `AssertionError` for a length
mismatch and `ValueError` for a label outside `{0, 1}`. -/
inductive AucError where
  | lengthMismatch
  | invalidLabel
  deriving DecidableEq

/-- Source `sum(labels == 1)`: how many labels are exactly 1. -/
def numberPositive (labels : List Int) : ℕ :=
  (labels.filter (fun x => x = 1)).length

/-- Source `sum(labels == 0)`: how many labels are exactly 0. -/
def numberNegative (labels : List Int) : ℕ :=
  (labels.filter (fun x => x = 0)).length

/-- Python tuple comparison `(p1, l1) <= (p2, l2)` (lexicographic). -/
def tupleLe (a b : ℚ × Int) : Prop :=
  a.1 < b.1 ∨ (a.1 = b.1 ∧ a.2 ≤ b.2)

instance : DecidableRel tupleLe := fun a b =>
  decidable_of_iff (a.1 < b.1 ∨ (a.1 = b.1 ∧ a.2 ≤ b.2)) Iff.rfl

/-- The order produced by `ordered_labels.sort(reverse=True)`: `a` may come
before `b` exactly when `b <= a` in Python tuple order. -/
def pairDesc (a b : ℚ × Int) : Prop := tupleLe b a

instance : DecidableRel pairDesc := fun a b =>
  decidable_of_iff (tupleLe b a) Iff.rfl

instance : IsTotal (ℚ × Int) pairDesc where
  total a b := by
    unfold pairDesc tupleLe
    rcases lt_trichotomy a.1 b.1 with h | h | h
    · exact Or.inr (Or.inl h)
    · rcases le_total a.2 b.2 with h2 | h2
      · exact Or.inr (Or.inr ⟨h, h2⟩)
      · exact Or.inl (Or.inr ⟨h.symm, h2⟩)
    · exact Or.inl (Or.inl h)

instance : IsTrans (ℚ × Int) pairDesc where
  trans a b c hab hbc := by
    unfold pairDesc tupleLe at *
    rcases hab with h1 | ⟨h1e, h1l⟩ <;> rcases hbc with h2 | ⟨h2e, h2l⟩
    · exact Or.inl (lt_trans h2 h1)
    · exact Or.inl (lt_of_le_of_lt (le_of_eq h2e) h1)
    · exact Or.inl (lt_of_lt_of_le h2 (le_of_eq h1e))
    · exact Or.inr ⟨h2e.trans h1e, le_trans h2l h1l⟩

/-- `ordered_labels.sort(reverse=True)`: sort the `(probability, label)`
pairs into descending Python tuple order.  Python's sort is a stable
descending sort; since the lexicographic order on pairs is antisymmetric,
the sorted permutation is unique, and insertion sort realises it. -/
def sortDesc (l : List (ℚ × Int)) : List (ℚ × Int) :=
  List.insertionSort pairDesc l

/-- The `for label in ordered_labels` loop.  Arguments `curF`, `curT`,
`auc` are the running `fpr[-1]`, `tpr[-1]` and `auc`; the result is the
final `auc` together with the values appended to `fpr` and to `tpr`
(the initial `[0]` is prepended by `get_auc`). -/
def aucLoop (P N : ℕ) (curF curT auc : ℚ) :
    List (ℚ × Int) → ℚ × List ℚ × List ℚ
  | [] => (auc, [], [])
  | pair :: rest =>
    if pair.2 = 1 then
      let out := aucLoop P N curF (curT + 1 / (P : ℚ)) auc rest
      (out.1, curF :: out.2.1, (curT + 1 / (P : ℚ)) :: out.2.2)
    else
      let out := aucLoop P N (curF + 1 / (N : ℚ)) curT
        (auc + curT / (N : ℚ)) rest
      (out.1, (curF + 1 / (N : ℚ)) :: out.2.1, curT :: out.2.2)

/-- `get_auc(labels, probabilities)` from `src/python/auc.py`: checks the
lengths, checks the labels, sorts the zipped pairs descending and sweeps
the ROC curve, returning `(auc, fpr, tpr)`. -/
def get_auc (labels : List Int) (probabilities : List ℚ) :
    Except AucError (ℚ × List ℚ × List ℚ) :=
  let P := numberPositive labels
  let N := numberNegative labels
  if labels.length ≠ probabilities.length then
    .error .lengthMismatch
  else if P + N ≠ labels.length then
    .error .invalidLabel
  else
    let ordered_labels := sortDesc (probabilities.zip labels)
    let out := aucLoop P N 0 0 0 ordered_labels
    .ok (out.1, 0 :: out.2.1, 0 :: out.2.2)

/-- C1: the doctest scenario.  `get_auc([0,0,1,1], [0.0,0.6,0.4,0.8])`
returns `auc = 0.75`, `fpr = [0, 0, 0.5, 0.5, 1.0]`,
`tpr = [0, 0.5, 0.5, 1.0, 1.0]`. -/
theorem get_auc_doctest :
    get_auc [0, 0, 1, 1] [0, 3/5, 2/5, 4/5] =
      .ok (3/4, [0, 0, 1/2, 1/2, 1], [0, 1/2, 1/2, 1, 1]) := by
  norm_num [get_auc, numberPositive, numberNegative, sortDesc, aucLoop,
    pairDesc, tupleLe, List.insertionSort, List.orderedInsert, List.zip,
    List.zipWith]

/-- Adding one element to the list adds its contribution to the positive
count. -/
theorem numberPositive_cons (a : Int) (l : List Int) :
    numberPositive (a :: l) = numberPositive l + (if a = 1 then 1 else 0) := by
  by_cases h : a = 1 <;> simp [numberPositive, List.filter_cons, h, Nat.add_comm]

/-- Adding one element to the list adds its contribution to the negative
count. -/
theorem numberNegative_cons (a : Int) (l : List Int) :
    numberNegative (a :: l) = numberNegative l + (if a = 0 then 1 else 0) := by
  by_cases h : a = 0 <;> simp [numberNegative, List.filter_cons, h, Nat.add_comm]

/-- The two counts never exceed the length. -/
theorem counts_le_length (labels : List Int) :
    numberPositive labels + numberNegative labels ≤ labels.length := by
  induction labels with
  | nil => simp [numberPositive, numberNegative]
  | cons a l ih =>
    rw [numberPositive_cons, numberNegative_cons, List.length_cons]
    by_cases h1 : a = 1 <;> by_cases h0 : a = 0 <;> simp [h1, h0] <;> omega

/-- The label check of `get_auc`: the positive and negative counts sum to
the length exactly when every label is 0 or 1. -/
theorem label_check_iff (labels : List Int) :
    numberPositive labels + numberNegative labels = labels.length ↔
      ∀ x ∈ labels, x = 0 ∨ x = 1 := by
  induction labels with
  | nil => simp [numberPositive, numberNegative]
  | cons a l ih =>
    rw [numberPositive_cons, numberNegative_cons, List.length_cons]
    have hle := counts_le_length l
    by_cases h1 : a = 1 <;> by_cases h0 : a = 0 <;>
      simp [h1, h0, ← ih] <;> omega

/-- When both checks pass, `get_auc` returns the swept triple. -/
theorem get_auc_ok (labels : List Int) (probs : List ℚ)
    (hlen : labels.length = probs.length)
    (hlab : ∀ x ∈ labels, x = 0 ∨ x = 1) :
    get_auc labels probs =
      .ok ((aucLoop (numberPositive labels) (numberNegative labels) 0 0 0
              (sortDesc (probs.zip labels))).1,
           0 :: (aucLoop (numberPositive labels) (numberNegative labels) 0 0 0
              (sortDesc (probs.zip labels))).2.1,
           0 :: (aucLoop (numberPositive labels) (numberNegative labels) 0 0 0
              (sortDesc (probs.zip labels))).2.2) := by
  have hlab2 := (label_check_iff labels).mpr hlab
  simp [get_auc, hlen, hlab2]

/-- C5: `get_auc` raises the length-mismatch error exactly when the lengths
differ; for equal lengths it raises the invalid-label error exactly when
some label is outside `{0, 1}`; `get_auc([-1,1],[0,0])` raises the
invalid-label error and `get_auc([0,1],[0,0,1])` the length-mismatch
error. -/
theorem get_auc_error_spec (labels : List Int) (probs : List ℚ) :
    (get_auc labels probs = .error .lengthMismatch ↔
      labels.length ≠ probs.length) ∧
    (labels.length = probs.length →
      (get_auc labels probs = .error .invalidLabel ↔
        ¬ ∀ x ∈ labels, x = 0 ∨ x = 1)) ∧
    get_auc [-1, 1] [0, 0] = .error .invalidLabel ∧
    get_auc [0, 1] [0, 0, 1] = .error .lengthMismatch := by
  refine ⟨?_, ?_, ?_, ?_⟩
  · by_cases h : labels.length = probs.length
    · by_cases h2 : numberPositive labels + numberNegative labels =
        probs.length
      · simp [get_auc, h, h2]
      · simp [get_auc, h, h2]
    · simp [get_auc, h]
  · intro h
    by_cases h2 : numberPositive labels + numberNegative labels =
      probs.length
    · simp [get_auc, h, h2, ← label_check_iff]
    · simp [get_auc, h, h2, ← label_check_iff]
  · norm_num [get_auc, numberPositive, numberNegative]
  · norm_num [get_auc]

/-- How many pairs in a sweep list carry label 1. -/
def posCount (l : List (ℚ × Int)) : ℕ :=
  l.countP (fun p => decide (p.2 = 1))

/-- How many pairs in a sweep list carry a label other than 1 (the `else`
branch of the loop). -/
def negCount (l : List (ℚ × Int)) : ℕ :=
  l.countP (fun p => decide (p.2 ≠ 1))

/-- Cons formula for `posCount`. -/
theorem posCount_cons (p : ℚ × Int) (l : List (ℚ × Int)) :
    posCount (p :: l) = posCount l + (if p.2 = 1 then 1 else 0) := by
  by_cases h : p.2 = 1 <;> simp [posCount, List.countP_cons, h]

/-- Cons formula for `negCount`. -/
theorem negCount_cons (p : ℚ × Int) (l : List (ℚ × Int)) :
    negCount (p :: l) = negCount l + (if p.2 = 1 then 0 else 1) := by
  by_cases h : p.2 = 1 <;> simp [negCount, List.countP_cons, h]

/-- Every pair goes through exactly one branch of the loop. -/
theorem posCount_add_negCount (l : List (ℚ × Int)) :
    posCount l + negCount l = l.length := by
  induction l with
  | nil => rfl
  | cons p l ih =>
    rw [posCount_cons, negCount_cons, List.length_cons]
    by_cases h : p.2 = 1 <;> simp [h] <;> omega

/-- Zipping does not change the number of positive labels. -/
theorem posCount_zip (probs : List ℚ) (labels : List Int)
    (h : labels.length = probs.length) :
    posCount (probs.zip labels) = numberPositive labels := by
  induction labels generalizing probs with
  | nil =>
    cases probs with
    | nil => rfl
    | cons q qs => simp at h
  | cons a l ih =>
    cases probs with
    | nil => simp at h
    | cons q qs =>
      have h2 : l.length = qs.length := by simpa using h
      rw [List.zip_cons_cons, posCount_cons, ih qs h2, numberPositive_cons]

/-- The fpr tail produced by the loop has one entry per input pair. -/
theorem aucLoop_fpr_length (P N : ℕ) :
    ∀ (l : List (ℚ × Int)) (f t a : ℚ),
      (aucLoop P N f t a l).2.1.length = l.length := by
  intro l
  induction l with
  | nil => intro f t a; rfl
  | cons p rest ih =>
    intro f t a
    by_cases h : p.2 = 1 <;> simp [aucLoop, h, ih]

/-- The tpr tail produced by the loop has one entry per input pair. -/
theorem aucLoop_tpr_length (P N : ℕ) :
    ∀ (l : List (ℚ × Int)) (f t a : ℚ),
      (aucLoop P N f t a l).2.2.length = l.length := by
  intro l
  induction l with
  | nil => intro f t a; rfl
  | cons p rest ih =>
    intro f t a
    by_cases h : p.2 = 1 <;> simp [aucLoop, h, ih]

/-- The fpr sequence is non-decreasing from any starting level. -/
theorem aucLoop_fpr_chain (P N : ℕ) :
    ∀ (l : List (ℚ × Int)) (f t a : ℚ),
      List.Chain' (· ≤ ·) (f :: (aucLoop P N f t a l).2.1) := by
  intro l
  induction l with
  | nil => intro f t a; simp [aucLoop]
  | cons p rest ih =>
    intro f t a
    by_cases h : p.2 = 1
    · simp only [aucLoop, if_pos h]
      exact List.chain'_cons.mpr ⟨le_refl f, ih f _ _⟩
    · simp only [aucLoop, if_neg h]
      refine List.chain'_cons.mpr ⟨?_, ih _ _ _⟩
      have hstep : 0 ≤ 1 / (N : ℚ) :=
        div_nonneg zero_le_one (Nat.cast_nonneg N)
      linarith

/-- The tpr sequence is non-decreasing from any starting level. -/
theorem aucLoop_tpr_chain (P N : ℕ) :
    ∀ (l : List (ℚ × Int)) (f t a : ℚ),
      List.Chain' (· ≤ ·) (t :: (aucLoop P N f t a l).2.2) := by
  intro l
  induction l with
  | nil => intro f t a; simp [aucLoop]
  | cons p rest ih =>
    intro f t a
    by_cases h : p.2 = 1
    · simp only [aucLoop, if_pos h]
      refine List.chain'_cons.mpr ⟨?_, ih _ _ _⟩
      have hstep : 0 ≤ 1 / (P : ℚ) :=
        div_nonneg zero_le_one (Nat.cast_nonneg P)
      linarith
    · simp only [aucLoop, if_neg h]
      exact List.chain'_cons.mpr ⟨le_refl t, ih _ t _⟩

/-- The final fpr value is the starting level plus one negative step per
non-positive pair. -/
theorem aucLoop_fpr_getLast (P N : ℕ) :
    ∀ (l : List (ℚ × Int)) (f t a : ℚ),
      (f :: (aucLoop P N f t a l).2.1).getLast? =
        some (f + (negCount l : ℚ) / N) := by
  intro l
  induction l with
  | nil => intro f t a; simp [aucLoop, negCount]
  | cons p rest ih =>
    intro p0 t a
    by_cases h : p.2 = 1
    · simp only [aucLoop, if_pos h]
      rw [List.getLast?_cons_cons, ih p0 _ _, negCount_cons, if_pos h]
      simp
    · simp only [aucLoop, if_neg h]
      rw [List.getLast?_cons_cons, ih _ t _, negCount_cons, if_neg h]
      congr 1
      push_cast
      ring

/-- The final tpr value is the starting level plus one positive step per
positive pair. -/
theorem aucLoop_tpr_getLast (P N : ℕ) :
    ∀ (l : List (ℚ × Int)) (f t a : ℚ),
      (t :: (aucLoop P N f t a l).2.2).getLast? =
        some (t + (posCount l : ℚ) / P) := by
  intro l
  induction l with
  | nil => intro f t a; simp [aucLoop, posCount]
  | cons p rest ih =>
    intro f t0 a
    by_cases h : p.2 = 1
    · simp only [aucLoop, if_pos h]
      rw [List.getLast?_cons_cons, ih f _ _, posCount_cons, if_pos h]
      congr 1
      push_cast
      ring
    · simp only [aucLoop, if_neg h]
      rw [List.getLast?_cons_cons, ih _ t0 _, posCount_cons, if_neg h]
      simp

/-- C2: for every equal-length input whose labels all lie in `{0, 1}` and
that has at least one positive and one negative, `get_auc` succeeds and
both rate sequences are non-decreasing, have length `n + 1`, start at 0
and end at 1. -/
theorem get_auc_curve_shape (labels : List Int) (probs : List ℚ)
    (hlen : labels.length = probs.length)
    (hlab : ∀ x ∈ labels, x = 0 ∨ x = 1)
    (hP : 0 < numberPositive labels)
    (hN : 0 < numberNegative labels) :
    ∃ auc fpr tpr,
      get_auc labels probs = .ok (auc, fpr, tpr) ∧
      List.Chain' (· ≤ ·) fpr ∧ List.Chain' (· ≤ ·) tpr ∧
      fpr.length = labels.length + 1 ∧ tpr.length = labels.length + 1 ∧
      fpr.head? = some 0 ∧ tpr.head? = some 0 ∧
      fpr.getLast? = some 1 ∧ tpr.getLast? = some 1 := by
  have hperm : (sortDesc (probs.zip labels)).Perm (probs.zip labels) :=
    List.perm_insertionSort pairDesc (probs.zip labels)
  have hzl : (probs.zip labels).length = labels.length := by
    simp [List.length_zip, hlen]
  have hsl : (sortDesc (probs.zip labels)).length = labels.length := by
    rw [hperm.length_eq, hzl]
  have hPN : numberPositive labels + numberNegative labels = labels.length :=
    (label_check_iff labels).mpr hlab
  have hpos : posCount (sortDesc (probs.zip labels)) =
      numberPositive labels := by
    rw [posCount, hperm.countP_eq, ← posCount, posCount_zip probs labels hlen]
  have hneg : negCount (sortDesc (probs.zip labels)) =
      numberNegative labels := by
    have hadd := posCount_add_negCount (sortDesc (probs.zip labels))
    omega
  have hPQ : (numberPositive labels : ℚ) ≠ 0 :=
    Nat.cast_ne_zero.mpr hP.ne'
  have hNQ : (numberNegative labels : ℚ) ≠ 0 :=
    Nat.cast_ne_zero.mpr hN.ne'
  refine ⟨_, _, _, get_auc_ok labels probs hlen hlab,
    aucLoop_fpr_chain _ _ _ 0 0 0, aucLoop_tpr_chain _ _ _ 0 0 0,
    ?_, ?_, rfl, rfl, ?_, ?_⟩
  · simp [aucLoop_fpr_length, hsl]
  · simp [aucLoop_tpr_length, hsl]
  · rw [aucLoop_fpr_getLast, hneg, div_self hNQ]
    norm_num
  · rw [aucLoop_tpr_getLast, hpos, div_self hPQ]
    norm_num

/-- Witness for C2 at `labels = [0, 1]`, `probabilities = [0, 1]`. -/
theorem get_auc_curve_shape_witness :
    ∃ auc fpr tpr,
      get_auc [0, 1] [0, 1] = .ok (auc, fpr, tpr) ∧
      List.Chain' (· ≤ ·) fpr ∧ List.Chain' (· ≤ ·) tpr ∧
      fpr.length = 3 ∧ tpr.length = 3 ∧
      fpr.head? = some 0 ∧ tpr.head? = some 0 ∧
      fpr.getLast? = some 1 ∧ tpr.getLast? = some 1 :=
  get_auc_curve_shape [0, 1] [0, 1] rfl (by decide) (by decide) (by decide)

/-- Modelled from the spec: the explicit composite comparator
"probability descending, then label descending". -/
def compGe (a b : ℚ × Int) : Prop :=
  a.1 > b.1 ∨ (a.1 = b.1 ∧ a.2 ≥ b.2)

instance : DecidableRel compGe := fun a b =>
  decidable_of_iff (a.1 > b.1 ∨ (a.1 = b.1 ∧ a.2 ≥ b.2)) Iff.rfl

/-- Descending Python tuple order is the composite comparator. -/
theorem pairDesc_iff_compGe (a b : ℚ × Int) : pairDesc a b ↔ compGe a b := by
  unfold pairDesc tupleLe compGe
  constructor
  · rintro (h | ⟨he, hl⟩)
    · exact Or.inl h
    · exact Or.inr ⟨he.symm, hl⟩
  · rintro (h | ⟨he, hl⟩)
    · exact Or.inl h
    · exact Or.inr ⟨he.symm, hl⟩

/-- Inserting with either comparator gives the same list. -/
theorem orderedInsert_comp_eq (a : ℚ × Int) :
    ∀ l, List.orderedInsert pairDesc a l = List.orderedInsert compGe a l := by
  intro l
  induction l with
  | nil => rfl
  | cons b l ih =>
    simp only [List.orderedInsert]
    rw [ih]
    exact if_congr (pairDesc_iff_compGe a b) rfl rfl

/-- Sorting with either comparator gives the same list. -/
theorem sortDesc_eq_insertionSort_compGe :
    ∀ l, sortDesc l = List.insertionSort compGe l := by
  intro l
  induction l with
  | nil => rfl
  | cons a l ih =>
    have ih2 : List.insertionSort pairDesc l = List.insertionSort compGe l :=
      ih
    show List.orderedInsert pairDesc a (List.insertionSort pairDesc l) =
      List.orderedInsert compGe a (List.insertionSort compGe l)
    rw [ih2, orderedInsert_comp_eq]

/-- C3: the sweep list is a permutation of the zipped pairs, sorted by
probability descending with equal probabilities ordered by label
descending, and the returned triple equals the sweep over the sequence
sorted by that composite comparator. -/
theorem get_auc_sort_spec (labels : List Int) (probs : List ℚ)
    (hlen : labels.length = probs.length)
    (hlab : ∀ x ∈ labels, x = 0 ∨ x = 1) :
    (sortDesc (probs.zip labels)).Perm (probs.zip labels) ∧
    List.Sorted compGe (sortDesc (probs.zip labels)) ∧
    get_auc labels probs =
      .ok ((aucLoop (numberPositive labels) (numberNegative labels) 0 0 0
              (List.insertionSort compGe (probs.zip labels))).1,
           0 :: (aucLoop (numberPositive labels) (numberNegative labels) 0 0 0
              (List.insertionSort compGe (probs.zip labels))).2.1,
           0 :: (aucLoop (numberPositive labels) (numberNegative labels) 0 0 0
              (List.insertionSort compGe (probs.zip labels))).2.2) := by
  refine ⟨List.perm_insertionSort pairDesc _, ?_, ?_⟩
  · exact (List.sorted_insertionSort pairDesc (probs.zip labels)).imp
      (fun h => (pairDesc_iff_compGe _ _).mp h)
  · rw [get_auc_ok labels probs hlen hlab, sortDesc_eq_insertionSort_compGe]

/-- Witness for C3 at the doctest input. -/
theorem get_auc_sort_spec_witness :
    (sortDesc ([0, 3/5, 2/5, 4/5].zip [0, 0, 1, 1])).Perm
      ([0, 3/5, 2/5, 4/5].zip [0, 0, 1, 1]) ∧
    List.Sorted compGe (sortDesc ([0, 3/5, 2/5, 4/5].zip [0, 0, 1, 1])) ∧
    get_auc [0, 0, 1, 1] [0, 3/5, 2/5, 4/5] =
      .ok ((aucLoop (numberPositive [0, 0, 1, 1])
              (numberNegative [0, 0, 1, 1]) 0 0 0
              (List.insertionSort compGe
                ([0, 3/5, 2/5, 4/5].zip [0, 0, 1, 1]))).1,
           0 :: (aucLoop (numberPositive [0, 0, 1, 1])
              (numberNegative [0, 0, 1, 1]) 0 0 0
              (List.insertionSort compGe
                ([0, 3/5, 2/5, 4/5].zip [0, 0, 1, 1]))).2.1,
           0 :: (aucLoop (numberPositive [0, 0, 1, 1])
              (numberNegative [0, 0, 1, 1]) 0 0 0
              (List.insertionSort compGe
                ([0, 3/5, 2/5, 4/5].zip [0, 0, 1, 1]))).2.2) :=
  get_auc_sort_spec [0, 0, 1, 1] [0, 3/5, 2/5, 4/5] rfl (by decide)

/-- C4 counterexample: an input whose labels are all 0 passes both checks
and returns normally, with no degenerate-input failure. -/
theorem get_auc_no_degenerate_error :
    get_auc [0, 0] [1/2, 1/4] = .ok (0, [0, 1/2, 1], [0, 0, 0]) := by
  norm_num [get_auc, numberPositive, numberNegative, sortDesc, aucLoop,
    pairDesc, tupleLe, List.insertionSort, List.orderedInsert, List.zip,
    List.zipWith]

/-- When no pair carries label 1 the accumulated area never grows, because
the else branch adds the (never incremented) zero tpr level. -/
theorem aucLoop_fst_allneg (P N : ℕ) :
    ∀ (l : List (ℚ × Int)), (∀ p ∈ l, p.2 ≠ 1) →
      ∀ (f a : ℚ), (aucLoop P N f 0 a l).1 = a := by
  intro l
  induction l with
  | nil => intro _ f a; rfl
  | cons p rest ih =>
    intro h f a
    have hp : p.2 ≠ 1 := h p (List.mem_cons_self p rest)
    simp only [aucLoop, if_neg hp]
    rw [ih (fun q hq => h q (List.mem_cons_of_mem p hq)) _ _]
    norm_num

/-- When every pair carries label 1 the else branch never runs, so the
accumulated area stays put. -/
theorem aucLoop_fst_allpos (P N : ℕ) :
    ∀ (l : List (ℚ × Int)), (∀ p ∈ l, p.2 = 1) →
      ∀ (f t a : ℚ), (aucLoop P N f t a l).1 = a := by
  intro l
  induction l with
  | nil => intro _ f t a; rfl
  | cons p rest ih =>
    intro h f t a
    have hp : p.2 = 1 := h p (List.mem_cons_self p rest)
    simp only [aucLoop, if_pos hp]
    rw [ih (fun q hq => h q (List.mem_cons_of_mem p hq)) _ _ _]

/-- C4 amended: on inputs that pass the length and label checks but have
zero positives or zero negatives, `get_auc` does not fail; it returns
normally with `auc = 0` (the division by the zero count is never
executed, since the corresponding branch is never taken). -/
theorem get_auc_degenerate_ok (labels : List Int) (probs : List ℚ)
    (hlen : labels.length = probs.length)
    (hlab : ∀ x ∈ labels, x = 0 ∨ x = 1)
    (hdeg : numberPositive labels = 0 ∨ numberNegative labels = 0) :
    ∃ fpr tpr, get_auc labels probs = .ok (0, fpr, tpr) := by
  have hmemlab : ∀ p ∈ sortDesc (probs.zip labels), p.2 ∈ labels := by
    intro p hp
    have hz : p ∈ probs.zip labels :=
      ((List.perm_insertionSort pairDesc _).mem_iff).mp hp
    exact (List.of_mem_zip hz).2
  have hauc : (aucLoop (numberPositive labels) (numberNegative labels) 0 0 0
      (sortDesc (probs.zip labels))).1 = 0 := by
    rcases hdeg with hP0 | hN0
    · have hnone : ∀ x ∈ labels, x ≠ 1 := by
        have hnil : labels.filter (fun x => x = 1) = [] :=
          List.length_eq_zero.mp hP0
        intro x hx
        have := List.filter_eq_nil_iff.mp hnil x hx
        simpa using this
      exact aucLoop_fst_allneg _ _ _
        (fun q hq => hnone q.2 (hmemlab q hq)) 0 0
    · have hall1 : ∀ x ∈ labels, x = 1 := by
        have hnil : labels.filter (fun x => x = 0) = [] :=
          List.length_eq_zero.mp hN0
        intro x hx
        have hne := List.filter_eq_nil_iff.mp hnil x hx
        rcases hlab x hx with h0 | h1
        · simp [h0] at hne
        · exact h1
      exact aucLoop_fst_allpos _ _ _
        (fun q hq => hall1 q.2 (hmemlab q hq)) 0 0 0
  rw [get_auc_ok labels probs hlen hlab]
  exact ⟨_, _, by rw [hauc]⟩

/-- Witness for the amended C4 at `labels = [0, 0]`. -/
theorem get_auc_degenerate_ok_witness :
    ∃ fpr tpr, get_auc [0, 0] [1/2, 1/4] = .ok (0, fpr, tpr) :=
  get_auc_degenerate_ok [0, 0] [1/2, 1/4] rfl (by decide)
    (Or.inl (by decide))

/-- The sweep never looks at the probabilities: mapping them through any
function leaves the loop output unchanged. -/
theorem aucLoop_map (P N : ℕ) (g : ℚ → ℚ) :
    ∀ (l : List (ℚ × Int)) (f t a : ℚ),
      aucLoop P N f t a (l.map (Prod.map g id)) = aucLoop P N f t a l := by
  intro l
  induction l with
  | nil => intro f t a; rfl
  | cons p rest ih =>
    intro f t a
    by_cases h : p.2 = 1 <;> simp [aucLoop, h, ih, Prod.map]

/-- A strictly increasing transform of the probabilities commutes with the
descending sort. -/
theorem sortDesc_map (f : ℚ → ℚ) (hf : StrictMono f) (l : List (ℚ × Int)) :
    sortDesc (l.map (Prod.map f id)) = (sortDesc l).map (Prod.map f id) := by
  have hiff : ∀ a ∈ l, ∀ b ∈ l,
      (pairDesc a b ↔ pairDesc (Prod.map f id a) (Prod.map f id b)) := by
    intro a _ b _
    unfold pairDesc tupleLe
    simp only [Prod.map_fst, Prod.map_snd, id_eq]
    constructor
    · rintro (h | ⟨he, hl⟩)
      · exact Or.inl (hf h)
      · exact Or.inr ⟨congrArg f he, hl⟩
    · rintro (h | ⟨he, hl⟩)
      · exact Or.inl (hf.lt_iff_lt.mp h)
      · exact Or.inr ⟨hf.injective he, hl⟩
  exact (List.map_insertionSort pairDesc pairDesc (Prod.map f id) l hiff).symm

/-- C6: applying a strictly increasing function to the probabilities of a
valid input leaves the returned auc unchanged. -/
theorem get_auc_monotone_invariant (labels : List Int) (probs : List ℚ)
    (f : ℚ → ℚ) (hf : StrictMono f)
    (hlen : labels.length = probs.length)
    (hlab : ∀ x ∈ labels, x = 0 ∨ x = 1)
    (hP : 0 < numberPositive labels)
    (hN : 0 < numberNegative labels) :
    ∃ auc fpr tpr fpr2 tpr2,
      get_auc labels probs = .ok (auc, fpr, tpr) ∧
      get_auc labels (probs.map f) = .ok (auc, fpr2, tpr2) := by
  have hlen2 : labels.length = (probs.map f).length := by simpa using hlen
  have hz : (probs.map f).zip labels =
      (probs.zip labels).map (Prod.map f id) :=
    List.zip_map_left f probs labels
  rw [get_auc_ok labels probs hlen hlab,
    get_auc_ok labels (probs.map f) hlen2 hlab, hz, sortDesc_map f hf,
    aucLoop_map]
  exact ⟨_, _, _, _, _, rfl, rfl⟩

/-- Witness for C6 with the shift `x + 1` at `labels = [0, 1]`. -/
theorem get_auc_monotone_invariant_witness :
    ∃ auc fpr tpr fpr2 tpr2,
      get_auc [0, 1] [0, 1] = .ok (auc, fpr, tpr) ∧
      get_auc [0, 1] ([0, 1].map (fun x => x + 1)) = .ok (auc, fpr2, tpr2) :=
  get_auc_monotone_invariant [0, 1] [0, 1] (fun x => x + 1)
    (fun a b h => add_lt_add_right h 1) rfl (by decide) (by decide)
    (by decide)

/-- Sweeping a run of positive pairs leaves fpr and auc alone and raises
the tpr level by one positive step per pair. -/
theorem aucLoop_fst_pos_prefix (P N : ℕ) :
    ∀ (l1 : List (ℚ × Int)), (∀ p ∈ l1, p.2 = 1) →
      ∀ (l2 : List (ℚ × Int)) (f t a : ℚ),
        (aucLoop P N f t a (l1 ++ l2)).1 =
          (aucLoop P N f (t + (l1.length : ℚ) / P) a l2).1 := by
  intro l1
  induction l1 with
  | nil =>
    intro _ l2 f t a
    simp
  | cons p rest ih =>
    intro h l2 f t a
    have hp : p.2 = 1 := h p (List.mem_cons_self p rest)
    simp only [List.cons_append, aucLoop, if_pos hp, List.append_eq]
    rw [ih (fun q hq => h q (List.mem_cons_of_mem p hq)) l2 f _ a]
    have harg : t + 1 / (P : ℚ) + (rest.length : ℚ) / P =
        t + (((p :: rest).length : ℕ) : ℚ) / P := by
      push_cast [List.length_cons]
      ring
    rw [harg]

/-- Sweeping a run of non-positive pairs adds the fixed tpr level times one
negative step per pair to the accumulated area. -/
theorem aucLoop_fst_neg_run (P N : ℕ) :
    ∀ (l : List (ℚ × Int)), (∀ p ∈ l, p.2 ≠ 1) →
      ∀ (f t a : ℚ),
        (aucLoop P N f t a l).1 = a + (l.length : ℚ) * (t / N) := by
  intro l
  induction l with
  | nil => intro _ f t a; simp [aucLoop]
  | cons p rest ih =>
    intro h f t a
    have hp : p.2 ≠ 1 := h p (List.mem_cons_self p rest)
    simp only [aucLoop, if_neg hp]
    rw [ih (fun q hq => h q (List.mem_cons_of_mem p hq)) _ _ _]
    push_cast [List.length_cons]
    ring

/-- In a descending-sorted list where every positive pair outranks every
non-positive pair strictly, the positives form a prefix. -/
theorem sorted_perfect_split :
    ∀ (l : List (ℚ × Int)), List.Sorted pairDesc l →
      (∀ p ∈ l, p.2 = 1 → ∀ q ∈ l, q.2 ≠ 1 → q.1 < p.1) →
      ∃ l1 l2, l = l1 ++ l2 ∧ (∀ p ∈ l1, p.2 = 1) ∧
        (∀ q ∈ l2, q.2 ≠ 1) := by
  intro l
  induction l with
  | nil => intro _ _; exact ⟨[], [], rfl, by simp, by simp⟩
  | cons p rest ih =>
    intro hs hperf
    have hhead := (List.sorted_cons.mp hs).1
    have hrest := (List.sorted_cons.mp hs).2
    by_cases hp : p.2 = 1
    · have hperf2 : ∀ a ∈ rest, a.2 = 1 → ∀ q ∈ rest, q.2 ≠ 1 → q.1 < a.1 :=
        fun a ha h1 q hq hq1 =>
          hperf a (List.mem_cons_of_mem p ha) h1 q
            (List.mem_cons_of_mem p hq) hq1
      obtain ⟨l1, l2, heq, h1, h2⟩ := ih hrest hperf2
      refine ⟨p :: l1, l2, ?_, ?_, h2⟩
      · rw [List.cons_append, heq]
      · intro q hq
        rcases List.mem_cons.mp hq with rfl | hq2
        · exact hp
        · exact h1 q hq2
    · refine ⟨[], p :: rest, rfl, by simp, ?_⟩
      intro q hq
      rcases List.mem_cons.mp hq with rfl | hq2
      · exact hp
      · intro hq1
        have hlt : p.1 < q.1 :=
          hperf q (List.mem_cons_of_mem p hq2) hq1 p
            (List.mem_cons_self p rest) hp
        have hle : pairDesc p q := hhead q hq2
        simp only [pairDesc, tupleLe] at hle
        rcases hle with h | ⟨he, _⟩
        · exact absurd hlt (not_lt.mpr (le_of_lt h))
        · exact absurd hlt (not_lt.mpr (le_of_eq he))

/-- C7: on a valid input where every positive probability strictly exceeds
every negative probability, `get_auc` returns auc exactly 1. -/
theorem get_auc_perfect (labels : List Int) (probs : List ℚ)
    (hlen : labels.length = probs.length)
    (hlab : ∀ x ∈ labels, x = 0 ∨ x = 1)
    (hP : 0 < numberPositive labels)
    (hN : 0 < numberNegative labels)
    (hperf : ∀ p ∈ probs.zip labels, p.2 = 1 →
      ∀ q ∈ probs.zip labels, q.2 = 0 → q.1 < p.1) :
    ∃ fpr tpr, get_auc labels probs = .ok (1, fpr, tpr) := by
  have hperm : (sortDesc (probs.zip labels)).Perm (probs.zip labels) :=
    List.perm_insertionSort pairDesc _
  have hmemlab : ∀ p ∈ sortDesc (probs.zip labels), p.2 ∈ labels :=
    fun p hp => (List.of_mem_zip (hperm.mem_iff.mp hp)).2
  have hperf2 : ∀ p ∈ sortDesc (probs.zip labels), p.2 = 1 →
      ∀ q ∈ sortDesc (probs.zip labels), q.2 ≠ 1 → q.1 < p.1 := by
    intro p hp h1 q hq hq1
    have hq0 : q.2 = 0 := by
      rcases hlab q.2 (hmemlab q hq) with h | h
      · exact h
      · exact absurd h hq1
    exact hperf p (hperm.mem_iff.mp hp) h1 q (hperm.mem_iff.mp hq) hq0
  obtain ⟨l1, l2, heq, h1, h2⟩ :=
    sorted_perfect_split (sortDesc (probs.zip labels))
      (List.sorted_insertionSort pairDesc _) hperf2
  have hpos : posCount (sortDesc (probs.zip labels)) =
      numberPositive labels := by
    rw [posCount, hperm.countP_eq, ← posCount, posCount_zip probs labels hlen]
  have hsplitpos : posCount (sortDesc (probs.zip labels)) = l1.length := by
    rw [heq, posCount, List.countP_append]
    have e1 : l1.countP (fun p => decide (p.2 = 1)) = l1.length :=
      List.countP_eq_length.mpr (fun a ha => by simp [h1 a ha])
    have e2 : l2.countP (fun p => decide (p.2 = 1)) = 0 :=
      List.countP_eq_zero.mpr (fun a ha => by simp [h2 a ha])
    omega
  have hl1 : l1.length = numberPositive labels := by omega
  have hlen_s : (sortDesc (probs.zip labels)).length = labels.length := by
    rw [hperm.length_eq]
    simp [List.length_zip, hlen]
  have hPN : numberPositive labels + numberNegative labels = labels.length :=
    (label_check_iff labels).mpr hlab
  have hl2 : l2.length = numberNegative labels := by
    have hadd : l1.length + l2.length = labels.length := by
      rw [← List.length_append, ← heq, hlen_s]
    omega
  have hPQ : (numberPositive labels : ℚ) ≠ 0 := Nat.cast_ne_zero.mpr hP.ne'
  have hNQ : (numberNegative labels : ℚ) ≠ 0 := Nat.cast_ne_zero.mpr hN.ne'
  have hauc : (aucLoop (numberPositive labels) (numberNegative labels) 0 0 0
      (sortDesc (probs.zip labels))).1 = 1 := by
    rw [heq, aucLoop_fst_pos_prefix _ _ l1 h1 l2 0 0 0,
      aucLoop_fst_neg_run _ _ l2 h2 _ _ _, hl1, hl2, div_self hPQ]
    field_simp
  rw [get_auc_ok labels probs hlen hlab]
  exact ⟨_, _, by rw [hauc]⟩

/-- Witness for C7 at `labels = [0, 1]`, `probabilities = [0, 1]`. -/
theorem get_auc_perfect_witness :
    ∃ fpr tpr, get_auc [0, 1] [0, 1] = .ok (1, fpr, tpr) :=
  get_auc_perfect [0, 1] [0, 1] rfl (by decide) (by decide) (by decide)
    (by
      intro p hp h1 q hq hq0
      fin_cases hp <;> fin_cases hq <;> simp_all)

open Matrix

/-- The matrix inverse `**(-1)`, written out as the adjugate formula so
that it stays executable; it agrees with Mathlib's `Matrix.inv`. -/
def matInv {n : ℕ} (A : Matrix (Fin n) (Fin n) ℚ) :
    Matrix (Fin n) (Fin n) ℚ :=
  A.det⁻¹ • A.adjugate

/-- `matInv` is Mathlib's matrix inverse. -/
theorem matInv_eq {n : ℕ} (A : Matrix (Fin n) (Fin n) ℚ) :
    matInv A = A⁻¹ := by
  rw [matInv, Matrix.inv_def, Ring.inverse_eq_inv]

/-- `least_squares(x, y)` from `src/python/auc.py`: the closed-form normal
equations `w = (x.T * x)**(-1) * x.T * y`.  The code first transposes a
row-shaped `y` into a column; with `y` a typed vector of length `l` that
normalization is the identity, so it does not appear here. -/
def least_squares {l n : ℕ} (x : Matrix (Fin l) (Fin n) ℚ)
    (y : Fin l → ℚ) : Fin n → ℚ :=
  (matInv (xᵀ * x) * xᵀ).mulVec y

/-- `regression_residuals(x, y) = y - x * least_squares(x, y)`. -/
def regression_residuals {l n : ℕ} (x : Matrix (Fin l) (Fin n) ℚ)
    (y : Fin l → ℚ) : Fin l → ℚ :=
  y - x.mulVec (least_squares x y)

/-- C8: noiseless round trip.  When `xᵀx` is invertible and `y = x·w`,
`least_squares` returns exactly `w`. -/
theorem least_squares_round_trip {l n : ℕ}
    (x : Matrix (Fin l) (Fin n) ℚ) (w : Fin n → ℚ)
    (h : IsUnit (xᵀ * x).det) :
    least_squares x (x.mulVec w) = w := by
  unfold least_squares
  rw [matInv_eq, Matrix.mulVec_mulVec, Matrix.mul_assoc,
    Matrix.nonsing_inv_mul _ h, Matrix.one_mulVec]

/-- Witness for C8 on the 1×1 identity matrix with weight 2. -/
theorem least_squares_round_trip_witness :
    least_squares (1 : Matrix (Fin 1) (Fin 1) ℚ)
      ((1 : Matrix (Fin 1) (Fin 1) ℚ).mulVec (fun _ => 2)) =
        (fun _ => 2) :=
  least_squares_round_trip 1 (fun _ => 2) (by simp)

/-- C9: the residual vector is orthogonal to every column of `x`:
`xᵀ · r = 0` whenever `xᵀx` is invertible. -/
theorem regression_residuals_orthogonal {l n : ℕ}
    (x : Matrix (Fin l) (Fin n) ℚ) (y : Fin l → ℚ)
    (h : IsUnit (xᵀ * x).det) :
    xᵀ.mulVec (regression_residuals x y) = 0 := by
  unfold regression_residuals least_squares
  rw [matInv_eq, Matrix.mulVec_sub, Matrix.mulVec_mulVec,
    Matrix.mulVec_mulVec]
  have hone : xᵀ * x * ((xᵀ * x)⁻¹ * xᵀ) = xᵀ := by
    rw [← Matrix.mul_assoc, Matrix.mul_nonsing_inv _ h, Matrix.one_mul]
  rw [hone, sub_self]

/-- Witness for C9 on the 1×1 identity matrix with target 3. -/
theorem regression_residuals_orthogonal_witness :
    (1 : Matrix (Fin 1) (Fin 1) ℚ)ᵀ.mulVec
      (regression_residuals (1 : Matrix (Fin 1) (Fin 1) ℚ)
        (fun _ => 3)) = 0 :=
  regression_residuals_orthogonal 1 (fun _ => 3) (by simp)

/-- The source's `rows = range(i) + range(i + 1, number_features)`. -/
def vifRows (n i : ℕ) : List ℕ :=
  List.range i ++ List.range' (i + 1) (n - (i + 1))

/-- Column `j` of the leave-one-out submatrix `x[:, rows]`: position `j` of
the `rows` list.  The fallback branch is never reached, as every entry of
`rows` is below `n`. -/
def vifColumns {n : ℕ} (i : Fin n) (j : Fin (n - 1)) : Fin n :=
  if h : (vifRows n i.1).getD j.1 0 < n
  then ⟨(vifRows n i.1).getD j.1 0, h⟩ else i

/-- `get_vif(x)` from `src/python/auc.py`: per feature column, the total
sum of squares about the column mean divided by the residual sum of
squares of the leave-one-out regression. -/
def get_vif {l n : ℕ} (x : Matrix (Fin l) (Fin n) ℚ) : Fin n → ℚ :=
  fun i =>
    (∑ r, (x r i - (∑ r2, x r2 i) / (l : ℚ)) ^ 2) /
      (∑ r, (regression_residuals
        (Matrix.of fun r2 j => x r2 (vifColumns i j))
        (fun r2 => x r2 i) r) ^ 2)

/-- Modelled from the spec: "all columns except i" in their original
order, described piecewise rather than through the concatenated index
list. -/
def specDropColumn {n : ℕ} (i : Fin n) (j : Fin (n - 1)) : Fin n :=
  if _ : j.1 < i.1 then ⟨j.1, by have hi := i.2; have hj := j.2; omega⟩
  else ⟨j.1 + 1, by have hj := j.2; omega⟩

/-- The `rows` list is exactly "all indices except i, in order". -/
theorem vifRows_getD {n : ℕ} (i : Fin n) (j : Fin (n - 1)) :
    (vifRows n i.1).getD j.1 0 = if j.1 < i.1 then j.1 else j.1 + 1 := by
  have hi := i.2
  have hj := j.2
  unfold vifRows
  by_cases h : j.1 < i.1
  · rw [if_pos h, List.getD_append _ _ _ _ (by simpa using h),
      List.getD_eq_getElem _ _ (by simpa using h)]
    simp
  · rw [if_neg h, List.getD_append_right _ _ _ _ (by simp at *; omega),
      List.length_range, List.getD_eq_getElem _ _ (by simp at *; omega),
      List.getElem_range'_1]
    omega

/-- The code's column selection agrees with the spec's description. -/
theorem vifColumns_eq_specDropColumn {n : ℕ} (i : Fin n) (j : Fin (n - 1)) :
    vifColumns i j = specDropColumn i j := by
  have hi := i.2
  have hj := j.2
  have hval : (vifRows n i.1).getD j.1 0 =
      if j.1 < i.1 then j.1 else j.1 + 1 := vifRows_getD i j
  have hlt : (vifRows n i.1).getD j.1 0 < n := by
    rw [hval]
    split <;> omega
  have h1 : (vifColumns i j).1 = (vifRows n i.1).getD j.1 0 := by
    unfold vifColumns
    rw [dif_pos hlt]
  apply Fin.ext
  rw [h1, hval]
  unfold specDropColumn
  by_cases h : j.1 < i.1
  · rw [if_pos h, dif_pos h]
  · rw [if_neg h, dif_neg h]

/-- C10: `get_vif` yields one rational per feature column, and on any
matrix with at least two columns its `i`-th entry is the total sum of
squares of column `i` about its mean divided by the residual sum of
squares of regressing column `i` on all the other columns. -/
theorem get_vif_spec {l n : ℕ} (x : Matrix (Fin l) (Fin (n + 2)) ℚ)
    (i : Fin (n + 2)) :
    get_vif x i =
      (∑ r, (x r i - (∑ r2, x r2 i) / (l : ℚ)) ^ 2) /
        (∑ r, (regression_residuals
          (Matrix.of fun r2 j => x r2 (specDropColumn i j))
          (fun r2 => x r2 i) r) ^ 2) := by
  unfold get_vif
  have hcols : (Matrix.of fun r2 j => x r2 (vifColumns i j)) =
      (Matrix.of fun r2 j => x r2 (specDropColumn i j)) := by
    ext r2 j
    rw [Matrix.of_apply, Matrix.of_apply, vifColumns_eq_specDropColumn]
  rw [hcols]
